import Mathlib

/-!
Verification development for the `wager` repository's bounded rational
approximation routine (`src/rational_approximation.rs`, duplicated in
`src/math/rational_approximation.rs`) and its consumer, the decimal-odd
to fractional-odd conversion (`TryFrom<Decimal> for Fractional` in
`src/lib.rs`).

Embedding conventions:

* `f64` values are modelled by `EFloat`: an exact rational (`ℚ`) or one of
  the special values `+∞`, `-∞`, `NaN`.  Arithmetic inside the algorithm is
  carried out exactly over `ℚ` instead of with IEEE rounding; the special
  values are threaded through the comparisons (`<` returns `false` whenever
  `NaN` is involved) and through `fraction_to_double`, whose division by a
  zero denominator yields `±∞`/`NaN` exactly as Rust `f64` division does.
* Subtraction and division on `ℚ` are written with the kernel-computable
  helpers `qSub`/`qDiv` (Mathlib's `Rat.sub`/`Rat.inv` are irreducible);
  `qSub_eq` and `qDiv_eq` prove they are exactly `a - b` and `a / b`.
* The compile-time constant `f64::MAX - 0.5` rounds to `f64::MAX` in IEEE
  arithmetic, so the range guards are modelled by comparison with `F64_MAX`
  itself; for every representable finite double the guards are false and
  only `±∞` trigger them, exactly as in the compiled program.
* Rust's `as i32` cast of a (floored, finite) `f64` saturates; it is
  modelled by `i32SatCast`.  Rust `i32` division truncates toward zero and
  is modelled by `Int.tdiv`.
* The infinite `for term in 2..` loop breaks no later than
  `term = DEFAULT_MAX_TERMS = 47`; it is modelled with a fuel parameter
  (initial fuel 45 suffices, and fuel-irrelevance above the cap is proved).
-/

namespace Wager

/-- Exact subtraction `a - b` on `ℚ`, in a form the kernel can evaluate
(see `qSub_eq`). -/
def qSub (a b : ℚ) : ℚ :=
  Rat.divInt (a.num * (b.den : ℤ) - b.num * (a.den : ℤ)) ((a.den : ℤ) * (b.den : ℤ))

/-- Exact division `a / b` on `ℚ`, in a form the kernel can evaluate
(see `qDiv_eq`). -/
def qDiv (a b : ℚ) : ℚ :=
  Rat.divInt (a.num * (b.den : ℤ)) ((a.den : ℤ) * b.num)

theorem qSub_eq (a b : ℚ) : qSub a b = a - b := by
  have ha : ((a.den : ℚ)) ≠ 0 := by exact_mod_cast a.den_nz
  have hb : ((b.den : ℚ)) ≠ 0 := by exact_mod_cast b.den_nz
  have na := Rat.num_div_den a
  have nb := Rat.num_div_den b
  rw [div_eq_iff ha] at na
  rw [div_eq_iff hb] at nb
  unfold qSub
  rw [Rat.divInt_eq_div]
  push_cast
  rw [div_eq_iff (mul_ne_zero ha hb), na, nb]
  ring

theorem qDiv_eq (a b : ℚ) : qDiv a b = a / b := by
  rcases eq_or_ne b 0 with rfl | hb
  · unfold qDiv
    simp [Rat.divInt_eq_div]
  · have ha : ((a.den : ℚ)) ≠ 0 := by exact_mod_cast a.den_nz
    have hbd : ((b.den : ℚ)) ≠ 0 := by exact_mod_cast b.den_nz
    have hbn : ((b.num : ℚ)) ≠ 0 := by exact_mod_cast Rat.num_ne_zero.2 hb
    have na := Rat.num_div_den a
    have nb := Rat.num_div_den b
    rw [div_eq_iff ha] at na
    rw [div_eq_iff hbd] at nb
    unfold qDiv
    rw [Rat.divInt_eq_div]
    push_cast
    rw [div_eq_div_iff (mul_ne_zero ha hbn) hb, na, nb]
    ring

/-- Model of an `f64` value: an exact rational, `+∞`, `-∞`, or `NaN`. -/
inductive EFloat where
  | nan : EFloat
  | negInf : EFloat
  | finite (q : ℚ) : EFloat
  | posInf : EFloat
deriving DecidableEq

/-- IEEE `<` on modelled doubles: any comparison involving `NaN` is false. -/
def fLt : EFloat → EFloat → Bool
  | .nan, _ => false
  | _, .nan => false
  | .negInf, .negInf => false
  | .negInf, _ => true
  | _, .negInf => false
  | .posInf, _ => false
  | .finite _, .posInf => true
  | .finite q, .finite r => decide (q < r)

/-- IEEE `abs` on modelled doubles. -/
def eAbs : EFloat → EFloat
  | .nan => .nan
  | .negInf => .posInf
  | .posInf => .posInf
  | .finite q => .finite |q|

/-- Subtraction of a modelled double from an exact finite value. -/
def efSub (q : ℚ) : EFloat → EFloat
  | .nan => .nan
  | .negInf => .posInf
  | .posInf => .negInf
  | .finite r => .finite (qSub q r)

/-- `i32::MAX`. -/
def I32_MAX : ℤ := 2147483647

/-- `i32::MIN`. -/
def I32_MIN : ℤ := -2147483648

/-- The exact value of `f64::MAX` (the integer `(2^53 - 1) * 2^971`, see
`F64_MAX_eq`). -/
def F64_MAX : ℚ := 179769313486231570814527423731704356798070567525844996598917476803157260780028538760589558632766878171540458953514382464234321326889464182768467546703537516986049910576551282076245490090389328944075868508455133942304583236903222948165808559332123348274797826204144723168738177180919299881250404026184124858368

theorem F64_MAX_eq : F64_MAX = (2 ^ 53 - 1) * 2 ^ 971 := by
  unfold F64_MAX
  norm_num

/-- `DEFAULT_MAX_TERMS` from `src/rational_approximation.rs`. -/
def DEFAULT_MAX_TERMS : ℤ := 47

/-- `DEFAULT_CONVERGENCE_TOLERANCE = 1e-9` from `src/rational_approximation.rs`
(taken as the exact rational `10⁻⁹`). -/
def DEFAULT_CONVERGENCE_TOLERANCE : ℚ := Rat.divInt 1 1000000000

/-- `RATIONAL_APPROXIMATION_MAX_DENOMINATOR` from `src/lib.rs`. -/
def RATIONAL_APPROXIMATION_MAX_DENOMINATOR : ℤ := 100

/-- Rust's saturating `as i32` cast applied to an integer (the argument is the
already-floored value of a finite `f64`). -/
def i32SatCast (x : ℤ) : ℤ := max I32_MIN (min I32_MAX x)

/-- `append_continued_fraction_term` from `src/rational_approximation.rs`:
`(term * fraction.0 + prev.0, term * fraction.1 + prev.1)`. -/
def append_continued_fraction_term (fraction prev_convergent : ℤ × ℤ) (term : ℤ) : ℤ × ℤ :=
  (term * fraction.1 + prev_convergent.1, term * fraction.2 + prev_convergent.2)

/-- `fraction_to_double` from `src/rational_approximation.rs`: `f64` division
of numerator by denominator, with Rust's `x/0` semantics (`±∞`, `NaN`). -/
def fraction_to_double (fraction : ℤ × ℤ) : EFloat :=
  if fraction.2 = 0 then
    if 0 < fraction.1 then .posInf
    else if fraction.1 < 0 then .negInf
    else .nan
  else .finite (Rat.divInt fraction.1 fraction.2)

/-- Exit state of the continued-fraction loop: either the exact-convergence
early return (carrying the convergent) or the `break` (carrying the freshly
computed `continued_fraction_term`, `n`, and the two convergents). -/
inductive LoopExit where
  | exactExit (conv : ℤ × ℤ) : LoopExit
  | breakExit (cfTerm n : ℤ) (prev conv : ℤ × ℤ) : LoopExit
deriving DecidableEq

/-- Successor state of one loop iteration: the next
`(recip, cfTerm, prev, conv)` tuple together with `onFuelOut`, the
`breakExit` value of this iteration.  `onFuelOut` is only consulted when the
fuel runs out before the `term ≥ 47` cap would break the loop, and it equals
exactly the break value of the iteration, so exhausting fuel behaves like the
break; the fuel-irrelevance theorem below shows it is never consulted from
the initial state `term = 2`, `fuel = 45`. -/
structure LoopNext where
  onFuelOut : LoopExit
  recip : ℚ
  cfTerm : ℤ
  prev : ℤ × ℤ
  conv : ℤ × ℤ
deriving DecidableEq

/-- The value the Rust code computes for `n` in one iteration
(`src/rational_approximation.rs` lines 39-45): `n = (max_denominator -
prev_convergent.1) / convergent.1`, clamped to the numerator overflow guard
`(i32::MAX - prev_convergent.0) / convergent.0` when `convergent.0 > 0`. -/
def stepN (maxDen : ℤ) (prev conv : ℤ × ℤ) : ℤ :=
  if 0 < conv.1 ∧ Int.tdiv (I32_MAX - prev.1) conv.1 < Int.tdiv (maxDen - prev.2) conv.2 then
    Int.tdiv (I32_MAX - prev.1) conv.1
  else Int.tdiv (maxDen - prev.2) conv.2

/-- One iteration of the `for term in 2..` loop of `rational_approximation`
(`src/rational_approximation.rs` lines 30-58): either the loop exits
(`.inl`: the exact-convergence return, or the `break`) or it continues with
the next state (`.inr`). -/
def cfStep (maxDen : ℤ) (term : ℤ) (recip : ℚ) (cfTerm : ℤ)
    (prev conv : ℤ × ℤ) : LoopExit ⊕ LoopNext :=
  let nextResidual := qSub recip (cfTerm : ℚ)
  if |nextResidual| ≤ DEFAULT_CONVERGENCE_TOLERANCE then
    .inl (.exactExit conv)
  else
    let recip2 := qDiv 1 nextResidual
    let cf2 := i32SatCast ⌊recip2⌋
    let n2 := stepN maxDen prev conv
    if DEFAULT_MAX_TERMS ≤ term ∨ n2 ≤ cf2 then
      .inl (.breakExit cf2 n2 prev conv)
    else
      .inr ⟨.breakExit cf2 n2 prev conv, recip2, cf2, conv,
        append_continued_fraction_term conv prev cf2⟩

/-- The `for term in 2..` loop of `rational_approximation`: iterate `cfStep`.
`fuel` only bounds the recursion depth; the loop itself breaks at
`term ≥ DEFAULT_MAX_TERMS`, so any fuel with `47 ≤ term + fuel` gives the
same result (proved below). -/
def cfLoop (maxDen : ℤ) (fuel : ℕ) : ℤ → ℚ → ℤ → ℤ × ℤ → ℤ × ℤ → LoopExit :=
  Nat.rec
    (fun term recip cfTerm prev conv =>
      match cfStep maxDen term recip cfTerm prev conv with
      | .inl e => e
      | .inr s => s.onFuelOut)
    (fun _f ih term recip cfTerm prev conv =>
      match cfStep maxDen term recip cfTerm prev conv with
      | .inl e => e
      | .inr s => ih (term + 1) s.recip s.cfTerm s.prev s.conv)
    fuel

/-- The semiconvergent selection after the loop breaks
(`src/rational_approximation.rs` lines 60-76), including the source's
operator grouping `value - fraction_to_double(semiconvergent).abs()` on the
left of the comparison. -/
def semiconvergent_selector (value : ℚ) (cfTerm n : ℤ) (prev conv : ℤ × ℤ) : ℤ × ℤ :=
  let lowerBound := Int.tdiv cfTerm 2
  if lowerBound ≤ n then
    let n2 := if cfTerm < n then cfTerm else n
    let semi := append_continued_fraction_term conv prev n2
    if lowerBound < n2 ∨
        fLt (efSub value (eAbs (fraction_to_double semi)))
          (eAbs (efSub value (fraction_to_double conv))) then
      semi
    else conv
  else conv

/-- The part of `rational_approximation` after sign extraction: initial state
`recip = q`, `term = ⌊q⌋ as i32`, `prev = (1,0)`, `conv = (term, 1)`, the
loop, and the semiconvergent selection on break. -/
def approximation_core (q : ℚ) (maxDen : ℤ) : ℤ × ℤ :=
  let cf0 := i32SatCast ⌊q⌋
  match cfLoop maxDen 45 2 q cf0 (1, 0) (cf0, 1) with
  | .exactExit conv => conv
  | .breakExit cfTerm n prev conv => semiconvergent_selector q cfTerm n prev conv

/-- `rational_approximation` from `src/rational_approximation.rs`.  The range
guards compare with the `f64` value of `f64::MAX - 0.5` (which is `f64::MAX`)
and of `f64::MIN + 0.5` (which is `-f64::MAX`). -/
def rational_approximation (value : EFloat) (max_denominator : ℤ) : ℤ × ℤ :=
  if max_denominator ≤ 0 then (0, 0)
  else if fLt (.finite F64_MAX) value then (I32_MAX, 1)
  else if fLt value (.finite (-F64_MAX)) then (I32_MIN, 1)
  else
    let sign : ℤ := if fLt value (.finite 0) then -1 else 1
    match eAbs value with
    | .finite q =>
      let best := approximation_core q max_denominator
      (sign * best.1, best.2)
    | _ => (0, 0)

/-! ### The duplicate routine in `src/math/rational_approximation.rs`

`src/math/rational_approximation.rs` contains a second copy of the routine
(`approximate_rational`, with public wrapper `rational_approximation(value)`
fixing the bound to `DEFAULT_MAX_DENOMINATOR = 100`).  Its body is embedded
again below, mirroring that file; the constants `DEFAULT_MAX_TERMS` and
`DEFAULT_CONVERGENCE_TOLERANCE` are defined with the same literal values in
both Rust files and are shared here. -/

/-- `DEFAULT_MAX_DENOMINATOR` from `src/math/rational_approximation.rs`. -/
def DEFAULT_MAX_DENOMINATOR : ℤ := 100

/-- `append_continued_fraction_term` from `src/math/rational_approximation.rs`. -/
def m_append_continued_fraction_term (fraction prev_convergent : ℤ × ℤ) (term : ℤ) : ℤ × ℤ :=
  (term * fraction.1 + prev_convergent.1, term * fraction.2 + prev_convergent.2)

/-- `fraction_to_double` from `src/math/rational_approximation.rs`. -/
def m_fraction_to_double (fraction : ℤ × ℤ) : EFloat :=
  if fraction.2 = 0 then
    if 0 < fraction.1 then .posInf
    else if fraction.1 < 0 then .negInf
    else .nan
  else .finite (Rat.divInt fraction.1 fraction.2)

/-- The `n` computation of one `approximate_rational` iteration
(`src/math/rational_approximation.rs` lines 59-65). -/
def m_stepN (maxDen : ℤ) (prev conv : ℤ × ℤ) : ℤ :=
  if 0 < conv.1 ∧ Int.tdiv (I32_MAX - prev.1) conv.1 < Int.tdiv (maxDen - prev.2) conv.2 then
    Int.tdiv (I32_MAX - prev.1) conv.1
  else Int.tdiv (maxDen - prev.2) conv.2

/-- One iteration of the `for term in 2..` loop of `approximate_rational`
(`src/math/rational_approximation.rs` lines 50-75). -/
def m_cfStep (maxDen : ℤ) (term : ℤ) (recip : ℚ) (cfTerm : ℤ)
    (prev conv : ℤ × ℤ) : LoopExit ⊕ LoopNext :=
  let nextResidual := qSub recip (cfTerm : ℚ)
  if |nextResidual| ≤ DEFAULT_CONVERGENCE_TOLERANCE then
    .inl (.exactExit conv)
  else
    let recip2 := qDiv 1 nextResidual
    let cf2 := i32SatCast ⌊recip2⌋
    let n2 := m_stepN maxDen prev conv
    if DEFAULT_MAX_TERMS ≤ term ∨ n2 ≤ cf2 then
      .inl (.breakExit cf2 n2 prev conv)
    else
      .inr ⟨.breakExit cf2 n2 prev conv, recip2, cf2, conv,
        m_append_continued_fraction_term conv prev cf2⟩

/-- The `for term in 2..` loop of `approximate_rational`. -/
def m_cfLoop (maxDen : ℤ) (fuel : ℕ) : ℤ → ℚ → ℤ → ℤ × ℤ → ℤ × ℤ → LoopExit :=
  Nat.rec
    (fun term recip cfTerm prev conv =>
      match m_cfStep maxDen term recip cfTerm prev conv with
      | .inl e => e
      | .inr s => s.onFuelOut)
    (fun _f ih term recip cfTerm prev conv =>
      match m_cfStep maxDen term recip cfTerm prev conv with
      | .inl e => e
      | .inr s => ih (term + 1) s.recip s.cfTerm s.prev s.conv)
    fuel

/-- The semiconvergent selection of `approximate_rational`
(`src/math/rational_approximation.rs` lines 77-93). -/
def m_semiconvergent_selector (value : ℚ) (cfTerm n : ℤ) (prev conv : ℤ × ℤ) : ℤ × ℤ :=
  let lowerBound := Int.tdiv cfTerm 2
  if lowerBound ≤ n then
    let n2 := if cfTerm < n then cfTerm else n
    let semi := m_append_continued_fraction_term conv prev n2
    if lowerBound < n2 ∨
        fLt (efSub value (eAbs (m_fraction_to_double semi)))
          (eAbs (efSub value (m_fraction_to_double conv))) then
      semi
    else conv
  else conv

/-- The post-sign-extraction part of `approximate_rational`. -/
def m_approximation_core (q : ℚ) (maxDen : ℤ) : ℤ × ℤ :=
  let cf0 := i32SatCast ⌊q⌋
  match m_cfLoop maxDen 45 2 q cf0 (1, 0) (cf0, 1) with
  | .exactExit conv => conv
  | .breakExit cfTerm n prev conv => m_semiconvergent_selector q cfTerm n prev conv

/-- `approximate_rational` from `src/math/rational_approximation.rs`. -/
def approximate_rational (value : EFloat) (max_denominator : ℤ) : ℤ × ℤ :=
  if max_denominator ≤ 0 then (0, 0)
  else if fLt (.finite F64_MAX) value then (I32_MAX, 1)
  else if fLt value (.finite (-F64_MAX)) then (I32_MIN, 1)
  else
    let sign : ℤ := if fLt value (.finite 0) then -1 else 1
    match eAbs value with
    | .finite q =>
      let best := m_approximation_core q max_denominator
      (sign * best.1, best.2)
    | _ => (0, 0)

/-- `rational_approximation` (the public one-argument wrapper) from
`src/math/rational_approximation.rs`. -/
def m_rational_approximation (value : EFloat) : ℤ × ℤ :=
  approximate_rational value DEFAULT_MAX_DENOMINATOR

/-! ### The conversion layer: `TryFrom<Decimal> for Fractional` in `src/lib.rs` -/

/-- `gcd` from `src/fraction_simplification.rs` and `src/math.rs` (the same
Euclidean recursion `gcd(a, b) = if b == 0 { a } else { gcd(b, a % b) }` in
both files).  It is defined through `Nat.gcd` so that the kernel can evaluate
it; `rust_gcd_eq` proves it satisfies exactly the source recursion. -/
def rust_gcd (a b : ℕ) : ℕ := Nat.gcd a b

/-- `rust_gcd` satisfies the recursion written in the Rust sources. -/
theorem rust_gcd_eq (a b : ℕ) :
    rust_gcd a b = if b = 0 then a else rust_gcd b (a % b) := by
  unfold rust_gcd
  rcases Nat.eq_zero_or_pos b with rfl | hb
  · simp
  · rw [if_neg (Nat.pos_iff_ne_zero.1 hb), Nat.gcd_comm a b, Nat.gcd_rec b a,
      Nat.gcd_comm (a % b) b]

/-- `simplify` from `src/fraction_simplification.rs`: the `u32 → NonZeroU32`
conversions fail exactly on `0`, then the fraction is reduced by the gcd.
`none` models `Err(SimplifyError::InvalidFraction)`. -/
def simplify (numerator denominator : ℕ) : Option (ℕ × ℕ) :=
  if numerator = 0 ∨ denominator = 0 then none
  else
    let g := rust_gcd numerator denominator
    some (numerator / g, denominator / g)

/-- `Fractional::new` from `src/lib.rs`: simplify, then convert both parts to
`NonZeroU32` (failing on `0`).  `none` models `Err(OddError::InvalidOdd)`. -/
def lib_fractional_new (numerator denominator : ℕ) : Option (ℕ × ℕ) :=
  match simplify numerator denominator with
  | none => none
  | some (n, d) => if n = 0 ∨ d = 0 then none else some (n, d)

/-- `value.0 - 1.0` on a modelled double (`±∞` and `NaN` are absorbing). -/
def efSubOne (value : EFloat) : EFloat :=
  match value with
  | .finite q => .finite (qSub q 1)
  | e => e

/-- `TryFrom<Decimal> for Fractional` from `src/lib.rs` (lines 100-115):
run `rational_approximation(value.0 - 1.0, 100)`, reject non-positive
numerator or denominator, then build the fractional value from the absolute
values.  `none` models `Err(OddError::InvalidOdd)`. -/
def decimal_to_fractional (value : EFloat) : Option (ℕ × ℕ) :=
  if (rational_approximation (efSubOne value) RATIONAL_APPROXIMATION_MAX_DENOMINATOR).1 ≤ 0 ∨
      (rational_approximation (efSubOne value) RATIONAL_APPROXIMATION_MAX_DENOMINATOR).2 ≤ 0 then
    none
  else
    lib_fractional_new
      (rational_approximation (efSubOne value) RATIONAL_APPROXIMATION_MAX_DENOMINATOR).1.natAbs
      (rational_approximation (efSubOne value) RATIONAL_APPROXIMATION_MAX_DENOMINATOR).2.natAbs


/-! ### The duplicate conversion layer: `TryFrom<Decimal> for Fractional` in
`src/odd/fractional.rs`, built on `math::simplify_fraction` -/

/-- `simplify_fraction` from `src/math.rs`: reduce the fraction by the gcd,
with no zero check.  When `numerator = denominator = 0` the gcd is `0` and
the two `u32` divisions are Rust division-by-zero panics; `none` models that
panic (for every other input the gcd is positive and a pair is returned). -/
def simplify_fraction (numerator denominator : ℕ) : Option (ℕ × ℕ) :=
  if rust_gcd numerator denominator = 0 then none
  else some (numerator / rust_gcd numerator denominator,
    denominator / rust_gcd numerator denominator)

/-- Outcome of the fractional-odd constructor and decimal conversion in
`src/odd/fractional.rs`: an `Ok` value, an `Err(OddError::Invalid)`, or the
division-by-zero panic raised inside `math::simplify_fraction`. -/
inductive OddConvResult where
  | ok (numerator denominator : ℕ) : OddConvResult
  | invalid : OddConvResult
  | panics : OddConvResult
deriving DecidableEq

/-- `Fractional::new` from `src/odd/fractional.rs`: `math::simplify_fraction`
first (which can panic), then the two `u32 → NonZeroU32` conversions, which
fail exactly on `0` with `OddError::Invalid`. -/
def odd_fractional_new (numerator denominator : ℕ) : OddConvResult :=
  match simplify_fraction numerator denominator with
  | none => .panics
  | some (n, d) => if n = 0 ∨ d = 0 then .invalid else .ok n d

/-- `Decimal::new` from `src/odd/decimal.rs`: rejects exactly the values with
`value < 1.0`.  On `NaN` the comparison is false, so `NaN` is accepted. -/
def decimal_new (value : EFloat) : Option EFloat :=
  if fLt value (.finite 1) then none else some value

/-- `TryFrom<Decimal> for Fractional` from `src/odd/fractional.rs` (lines
122-139): run `math::rational_approximation(value.0 - 1.0)` (bound `100`)
and feed the `unsigned_abs` of the results straight to `Fractional::new`,
with no non-positivity guard. -/
def odd_decimal_to_fractional (value : EFloat) : OddConvResult :=
  odd_fractional_new
    (m_rational_approximation (efSubOne value)).1.natAbs
    (m_rational_approximation (efSubOne value)).2.natAbs


/-! ### Loop invariants, exit analysis, and equivalence lemmas -/


/-! ### Loop invariant machinery -/

/-- Unfolded form of `cfStep` used for case analysis in proofs. -/
theorem cfStep_eq (maxDen term : ℤ) (recip : ℚ) (cfTerm : ℤ) (prev conv : ℤ × ℤ) :
    cfStep maxDen term recip cfTerm prev conv =
      if |qSub recip (cfTerm : ℚ)| ≤ DEFAULT_CONVERGENCE_TOLERANCE then
        .inl (.exactExit conv)
      else if DEFAULT_MAX_TERMS ≤ term ∨
          stepN maxDen prev conv ≤ i32SatCast ⌊qDiv 1 (qSub recip (cfTerm : ℚ))⌋ then
        .inl (.breakExit (i32SatCast ⌊qDiv 1 (qSub recip (cfTerm : ℚ))⌋)
          (stepN maxDen prev conv) prev conv)
      else
        .inr ⟨.breakExit (i32SatCast ⌊qDiv 1 (qSub recip (cfTerm : ℚ))⌋)
            (stepN maxDen prev conv) prev conv,
          qDiv 1 (qSub recip (cfTerm : ℚ)),
          i32SatCast ⌊qDiv 1 (qSub recip (cfTerm : ℚ))⌋, conv,
          append_continued_fraction_term conv prev
            (i32SatCast ⌊qDiv 1 (qSub recip (cfTerm : ℚ))⌋)⟩ := rfl

theorem cfLoop_zero (maxDen : ℤ) (term : ℤ) (recip : ℚ) (cfTerm : ℤ)
    (prev conv : ℤ × ℤ) :
    cfLoop maxDen 0 term recip cfTerm prev conv
      = (match cfStep maxDen term recip cfTerm prev conv with
         | .inl e => e
         | .inr s => s.onFuelOut) := rfl

theorem cfLoop_succ (maxDen : ℤ) (f : ℕ) (term : ℤ) (recip : ℚ) (cfTerm : ℤ)
    (prev conv : ℤ × ℤ) :
    cfLoop maxDen (f + 1) term recip cfTerm prev conv
      = (match cfStep maxDen term recip cfTerm prev conv with
         | .inl e => e
         | .inr s => cfLoop maxDen f (term + 1) s.recip s.cfTerm s.prev s.conv) := rfl

/-- Truncating division of nonnegative integers is bounded by the dividend:
`(a.tdiv b) * b ≤ a`. -/
theorem tdiv_mul_le {a b : ℤ} (ha : 0 ≤ a) (hb : 0 < b) : Int.tdiv a b * b ≤ a := by
  rw [Int.tdiv_eq_ediv ha hb.le]
  exact Int.ediv_mul_le a hb.ne'

/-- `1 ≤ a.tdiv b` when `0 < b ≤ a`. -/
theorem one_le_tdiv {a b : ℤ} (hb : 0 < b) (h : b ≤ a) : 1 ≤ Int.tdiv a b := by
  rw [Int.tdiv_eq_ediv (hb.le.trans h) hb.le, Int.le_ediv_iff_mul_le hb]
  omega

/-- From a two-sided Bezout-style determinant `a * x - y * b = ±1`, the gcd of
`a` and `b` is `1`. -/
theorem det_coprime {a b x y : ℤ} (h : a * x - y * b = 1 ∨ a * x - y * b = -1) :
    Int.gcd a b = 1 := by
  rw [← Int.isCoprime_iff_gcd_eq_one]
  rcases h with h | h
  · exact ⟨x, -y, by linear_combination h⟩
  · exact ⟨-x, y, by linear_combination -h⟩

/-- Invariant of the loop state `(recip, cfTerm, prev, conv)`, for a bound
`M ≥ 1` and an initial value whose floor fits strictly below `i32::MAX`. -/
def StrongInv (M : ℤ) (recip : ℚ) (cfTerm : ℤ) (p c : ℤ × ℤ) : Prop :=
  0 ≤ recip ∧ cfTerm = ⌊recip⌋ ∧
  1 ≤ c.2 ∧ c.2 ≤ M ∧ 0 ≤ p.2 ∧ p.2 ≤ c.2 ∧
  0 ≤ p.1 ∧ p.1 ≤ I32_MAX ∧ 0 ≤ c.1 ∧ c.1 ≤ I32_MAX ∧
  (p.2 = 0 → p.1 = 1 ∧ c.2 = 1 ∧ c.1 ≤ I32_MAX - 1) ∧
  (c.1 * p.2 - p.1 * c.2 = 1 ∨ c.1 * p.2 - p.1 * c.2 = -1)

/-- What holds of the convergent returned by the exact-convergence exit. -/
def ConvOK (M : ℤ) (c : ℤ × ℤ) : Prop :=
  1 ≤ c.2 ∧ c.2 ≤ M ∧ Int.gcd c.1 c.2 = 1 ∧ 0 ≤ c.1

/-- What holds of the data carried by a `breakExit`. -/
def BreakOK (M : ℤ) (cfTerm n : ℤ) (p c : ℤ × ℤ) : Prop :=
  1 ≤ cfTerm ∧ 0 ≤ n ∧ 1 ≤ c.2 ∧ c.2 ≤ M ∧ 0 ≤ p.2 ∧ p.2 ≤ c.2 ∧
  n * c.2 + p.2 ≤ M ∧ (n = 0 → 1 ≤ p.2) ∧ 0 ≤ p.1 ∧ 0 ≤ c.1 ∧
  (c.1 * p.2 - p.1 * c.2 = 1 ∨ c.1 * p.2 - p.1 * c.2 = -1)

/-- What holds of any loop exit. -/
def ExitOK (M : ℤ) : LoopExit → Prop
  | .exactExit c => ConvOK M c
  | .breakExit cfTerm n p c => BreakOK M cfTerm n p c

/-- When the tolerance test fails, the fractional residual is strictly
positive, and the floor of its reciprocal lies in `[1, 10^9]`, so the
saturating cast is the identity on it. -/
theorem residual_facts {recip : ℚ} {cfTerm : ℤ} (hcf : cfTerm = ⌊recip⌋)
    (htol : ¬(|qSub recip (cfTerm : ℚ)| ≤ DEFAULT_CONVERGENCE_TOLERANCE)) :
    0 < qSub recip (cfTerm : ℚ) ∧
    1 ≤ ⌊qDiv 1 (qSub recip (cfTerm : ℚ))⌋ ∧
    ⌊qDiv 1 (qSub recip (cfTerm : ℚ))⌋ ≤ 1000000000 ∧
    i32SatCast ⌊qDiv 1 (qSub recip (cfTerm : ℚ))⌋ = ⌊qDiv 1 (qSub recip (cfTerm : ℚ))⌋ ∧
    0 < qDiv 1 (qSub recip (cfTerm : ℚ)) := by
  subst hcf
  rw [qSub_eq] at htol ⊢
  rw [qDiv_eq]
  have hfr : recip - (⌊recip⌋ : ℚ) = Int.fract recip := rfl
  rw [hfr] at htol ⊢
  have h1 : 0 ≤ Int.fract recip := Int.fract_nonneg recip
  have h2 : Int.fract recip < 1 := Int.fract_lt_one recip
  have htol2 : DEFAULT_CONVERGENCE_TOLERANCE < Int.fract recip := by
    rw [abs_of_nonneg h1] at htol
    exact lt_of_not_le htol
  have htolpos : (0 : ℚ) < DEFAULT_CONVERGENCE_TOLERANCE := by
    unfold DEFAULT_CONVERGENCE_TOLERANCE
    rw [Rat.divInt_eq_div]
    norm_num
  have hpos : 0 < Int.fract recip := lt_trans htolpos htol2
  have hlt : 1 < 1 / Int.fract recip := one_lt_one_div hpos h2
  have hub : 1 / Int.fract recip < 1000000000 := by
    rw [div_lt_iff₀ hpos]
    have htolval : DEFAULT_CONVERGENCE_TOLERANCE = 1 / 1000000000 := by
      unfold DEFAULT_CONVERGENCE_TOLERANCE
      rw [Rat.divInt_eq_div]
      norm_num
    rw [htolval] at htol2
    nlinarith
  have hf1 : 1 ≤ ⌊1 / Int.fract recip⌋ := by
    rw [Int.le_floor]
    exact_mod_cast hlt.le
  have hf2 : ⌊1 / Int.fract recip⌋ ≤ 1000000000 := by
    have : (⌊1 / Int.fract recip⌋ : ℚ) < 1000000000 :=
      lt_of_le_of_lt (Int.floor_le _) hub
    exact_mod_cast this.le
  refine ⟨hpos, hf1, hf2, ?_, by positivity⟩
  unfold i32SatCast I32_MAX I32_MIN
  rw [min_eq_right (by omega), max_eq_right (by omega)]



/-- The data carried by the `breakExit` of an iteration satisfies `BreakOK`. -/
theorem step_break_ok {M : ℤ} {recip : ℚ} {cfTerm : ℤ} {p c : ℤ × ℤ}
    (hInv : StrongInv M recip cfTerm p c)
    (htol : ¬(|qSub recip (cfTerm : ℚ)| ≤ DEFAULT_CONVERGENCE_TOLERANCE)) :
    BreakOK M (i32SatCast ⌊qDiv 1 (qSub recip (cfTerm : ℚ))⌋) (stepN M p c) p c := by
  obtain ⟨h0, hcf, hc2, hc2M, hp2, hp2c, hp1, hp1M, hc1, hc1M, hzero, hdet⟩ := hInv
  obtain ⟨-, hf1, -, hsat, -⟩ := residual_facts hcf htol
  have hn1pos : 0 ≤ Int.tdiv (M - p.2) c.2 := Int.tdiv_nonneg (by omega) (by omega)
  have hn1le : Int.tdiv (M - p.2) c.2 * c.2 ≤ M - p.2 := tdiv_mul_le (by omega) (by omega)
  constructor
  · omega
  refine ⟨?_, hc2, hc2M, hp2, hp2c, ?_, ?_, hp1, hc1, hdet⟩
  · unfold stepN
    split
    · exact Int.tdiv_nonneg (by omega) (by omega)
    · exact hn1pos
  · unfold stepN
    split
    · rename_i hcl
      have h1 : Int.tdiv (I32_MAX - p.1) c.1 ≤ Int.tdiv (M - p.2) c.2 := hcl.2.le
      nlinarith
    · nlinarith
  · intro hzn
    by_contra hcon
    have hp20 : p.2 = 0 := by omega
    obtain ⟨hp11, hc21, hc1M1⟩ := hzero hp20
    unfold stepN at hzn
    rw [hp20, hp11, hc21] at hzn
    have hM1 : Int.tdiv (M - 0) 1 = M := by
      rw [Int.tdiv_one]
      ring_nf
    rw [hM1] at hzn
    rcases lt_or_le 0 c.1 with hcpos | hcnonpos
    · have hup : 1 ≤ Int.tdiv (I32_MAX - 1) c.1 := one_le_tdiv hcpos (by omega)
      split at hzn
      · omega
      · omega
    · have hc10 : c.1 = 0 := by omega
      rw [hc10] at hzn
      split at hzn
      · rename_i hcl
        exact absurd hcl.1 (by omega)
      · omega

/-- One continuing iteration preserves the invariant. -/
theorem step_preserves {M : ℤ} {recip : ℚ} {cfTerm : ℤ} {p c : ℤ × ℤ}
    (hInv : StrongInv M recip cfTerm p c)
    (htol : ¬(|qSub recip (cfTerm : ℚ)| ≤ DEFAULT_CONVERGENCE_TOLERANCE))
    (hcont : i32SatCast ⌊qDiv 1 (qSub recip (cfTerm : ℚ))⌋ < stepN M p c) :
    StrongInv M (qDiv 1 (qSub recip (cfTerm : ℚ)))
      (i32SatCast ⌊qDiv 1 (qSub recip (cfTerm : ℚ))⌋) c
      (append_continued_fraction_term c p
        (i32SatCast ⌊qDiv 1 (qSub recip (cfTerm : ℚ))⌋)) := by
  obtain ⟨h0, hcf, hc2, hc2M, hp2, hp2c, hp1, hp1M, hc1, hc1M, hzero, hdet⟩ := hInv
  obtain ⟨-, hf1, -, hsat, hrpos⟩ := residual_facts hcf htol
  set cf2 := i32SatCast ⌊qDiv 1 (qSub recip (cfTerm : ℚ))⌋ with hcf2
  have hcf2ge : 1 ≤ cf2 := by omega
  have hn1le : Int.tdiv (M - p.2) c.2 * c.2 ≤ M - p.2 := tdiv_mul_le (by omega) (by omega)
  have hn2len1 : stepN M p c ≤ Int.tdiv (M - p.2) c.2 := by
    unfold stepN
    split
    · rename_i hcl
      exact hcl.2.le
    · exact le_refl _
  have hcnt : cf2 < stepN M p c := hcont
  unfold append_continued_fraction_term
  refine ⟨hrpos.le, hsat, ?_, ?_, by omega, ?_, hc1, hc1M, ?_, ?_, ?_, ?_⟩
  · show 1 ≤ cf2 * c.2 + p.2
    nlinarith
  · show cf2 * c.2 + p.2 ≤ M
    nlinarith
  · show c.2 ≤ cf2 * c.2 + p.2
    nlinarith
  · show 0 ≤ cf2 * c.1 + p.1
    nlinarith
  · show cf2 * c.1 + p.1 ≤ I32_MAX
    rcases lt_or_le 0 c.1 with hcpos | hcnonpos
    · have hn2leup : stepN M p c ≤ Int.tdiv (I32_MAX - p.1) c.1 := by
        unfold stepN
        split
        · exact le_refl _
        · rename_i hcl
          push_neg at hcl
          exact le_of_not_lt (by
            intro hlt
            exact absurd (hcl hcpos) (not_le.2 hlt))
      have huple : Int.tdiv (I32_MAX - p.1) c.1 * c.1 ≤ I32_MAX - p.1 :=
        tdiv_mul_le (by omega) hcpos
      nlinarith
    · have hc10 : c.1 = 0 := by omega
      rw [hc10]
      omega
  · intro hz
    exfalso
    omega
  · show (cf2 * c.1 + p.1) * c.2 - c.1 * (cf2 * c.2 + p.2) = 1 ∨
      (cf2 * c.1 + p.1) * c.2 - c.1 * (cf2 * c.2 + p.2) = -1
    rcases hdet with h | h
    · right
      linear_combination -h
    · left
      linear_combination -h



/-- Any exit of the loop satisfies `ExitOK`, starting from any state
satisfying the invariant. -/
theorem cfLoop_exit_ok {M : ℤ} :
    ∀ (fuel : ℕ) (term : ℤ) (recip : ℚ) (cfTerm : ℤ) (p c : ℤ × ℤ),
      StrongInv M recip cfTerm p c →
      ExitOK M (cfLoop M fuel term recip cfTerm p c) := by
  intro fuel
  induction fuel with
  | zero =>
    intro term recip cfTerm p c hInv
    rw [cfLoop_zero]
    rcases hstep : cfStep M term recip cfTerm p c with e | s
    all_goals rw [cfStep_eq] at hstep
    all_goals by_cases h1 : |qSub recip (cfTerm : ℚ)| ≤ DEFAULT_CONVERGENCE_TOLERANCE
    · rw [if_pos h1] at hstep
      injection hstep with h
      subst h
      exact ⟨hInv.2.2.1, hInv.2.2.2.1, det_coprime hInv.2.2.2.2.2.2.2.2.2.2.2,
        hInv.2.2.2.2.2.2.2.2.1⟩
    · rw [if_neg h1] at hstep
      by_cases h2 : DEFAULT_MAX_TERMS ≤ term ∨
          stepN M p c ≤ i32SatCast ⌊qDiv 1 (qSub recip (cfTerm : ℚ))⌋
      · rw [if_pos h2] at hstep
        injection hstep with h
        subst h
        exact step_break_ok hInv h1
      · rw [if_neg h2] at hstep
        cases hstep
    · rw [if_pos h1] at hstep
      cases hstep
    · rw [if_neg h1] at hstep
      by_cases h2 : DEFAULT_MAX_TERMS ≤ term ∨
          stepN M p c ≤ i32SatCast ⌊qDiv 1 (qSub recip (cfTerm : ℚ))⌋
      · rw [if_pos h2] at hstep
        cases hstep
      · rw [if_neg h2] at hstep
        injection hstep with h
        subst h
        exact step_break_ok hInv h1
  | succ f ih =>
    intro term recip cfTerm p c hInv
    rw [cfLoop_succ]
    rcases hstep : cfStep M term recip cfTerm p c with e | s
    all_goals rw [cfStep_eq] at hstep
    all_goals by_cases h1 : |qSub recip (cfTerm : ℚ)| ≤ DEFAULT_CONVERGENCE_TOLERANCE
    · rw [if_pos h1] at hstep
      injection hstep with h
      subst h
      exact ⟨hInv.2.2.1, hInv.2.2.2.1, det_coprime hInv.2.2.2.2.2.2.2.2.2.2.2,
        hInv.2.2.2.2.2.2.2.2.1⟩
    · rw [if_neg h1] at hstep
      by_cases h2 : DEFAULT_MAX_TERMS ≤ term ∨
          stepN M p c ≤ i32SatCast ⌊qDiv 1 (qSub recip (cfTerm : ℚ))⌋
      · rw [if_pos h2] at hstep
        injection hstep with h
        subst h
        exact step_break_ok hInv h1
      · rw [if_neg h2] at hstep
        cases hstep
    · rw [if_pos h1] at hstep
      cases hstep
    · rw [if_neg h1] at hstep
      by_cases h2 : DEFAULT_MAX_TERMS ≤ term ∨
          stepN M p c ≤ i32SatCast ⌊qDiv 1 (qSub recip (cfTerm : ℚ))⌋
      · rw [if_pos h2] at hstep
        cases hstep
      · rw [if_neg h2] at hstep
        injection hstep with h
        subst h
        push_neg at h2
        exact ih (term + 1) _ _ _ _ (step_preserves hInv h1 h2.2)


/-- Zeta-reduced form of `semiconvergent_selector` for case analysis. -/
theorem semiconvergent_selector_eq (q : ℚ) (cfTerm n : ℤ) (p c : ℤ × ℤ) :
    semiconvergent_selector q cfTerm n p c =
      if Int.tdiv cfTerm 2 ≤ n then
        if Int.tdiv cfTerm 2 < (if cfTerm < n then cfTerm else n) ∨
            fLt (efSub q (eAbs (fraction_to_double
                (append_continued_fraction_term c p (if cfTerm < n then cfTerm else n)))))
              (eAbs (efSub q (fraction_to_double c))) then
          append_continued_fraction_term c p (if cfTerm < n then cfTerm else n)
        else c
      else c := rfl

/-- A partial (semiconvergent) step keeps the denominator bound and the
coprimality, for any multiplier `n2` with the stated bounds. -/
theorem semi_ok {M : ℤ} {n2 : ℤ} {p c : ℤ × ℤ}
    (hge : 1 ≤ n2 * c.2 + p.2) (hle : n2 * c.2 + p.2 ≤ M)
    (hnum : 0 ≤ n2 * c.1 + p.1)
    (hdet : c.1 * p.2 - p.1 * c.2 = 1 ∨ c.1 * p.2 - p.1 * c.2 = -1) :
    ConvOK M (append_continued_fraction_term c p n2) := by
  unfold append_continued_fraction_term
  refine ⟨hge, hle, ?_, hnum⟩
  have hdet2 : (n2 * c.1 + p.1) * c.2 - c.1 * (n2 * c.2 + p.2) = 1 ∨
      (n2 * c.1 + p.1) * c.2 - c.1 * (n2 * c.2 + p.2) = -1 := by
    rcases hdet with hd | hd
    · right
      linear_combination -hd
    · left
      linear_combination -hd
  exact det_coprime hdet2

/-- The semiconvergent selection applied to break data satisfying `BreakOK`
yields a pair with denominator in `[1, M]` and coprime entries. -/
theorem selector_ok {M : ℤ} {q : ℚ} {cfTerm n : ℤ} {p c : ℤ × ℤ}
    (h : BreakOK M cfTerm n p c) :
    ConvOK M (semiconvergent_selector q cfTerm n p c) := by
  obtain ⟨hcf, hn, hc2, hc2M, hp2, hp2c, hbound, hz, hp1, hc1, hdet⟩ := h
  have hconv : ConvOK M c := ⟨hc2, hc2M, det_coprime hdet, hc1⟩
  rw [semiconvergent_selector_eq]
  by_cases hmin : cfTerm < n
  · simp only [if_pos hmin]
    split_ifs with hlb
    · refine semi_ok ?_ ?_ ?_ hdet
      · nlinarith
      · have h1 : cfTerm * c.2 ≤ n * c.2 := mul_le_mul_of_nonneg_right hmin.le (by omega)
        omega
      · have h1 : 0 ≤ cfTerm * c.1 := mul_nonneg (by omega) hc1
        omega
    · exact hconv
    · exact hconv
  · simp only [if_neg hmin]
    split_ifs with hlb
    · refine semi_ok ?_ ?_ ?_ hdet
      · rcases eq_or_lt_of_le hn with hz2 | hpos
        · have hn0 : n = 0 := hz2.symm
          have := hz hn0
          rw [hn0]
          omega
        · nlinarith
      · exact hbound
      · have h1 : 0 ≤ n * c.1 := mul_nonneg hn hc1
        omega
    · exact hconv
    · exact hconv

/-- The initial state of the loop satisfies the invariant, provided the floor
of the (nonnegative) input is at most `i32::MAX - 1`. -/
theorem initial_inv {M : ℤ} (hM : 1 ≤ M) {q : ℚ} (hq : 0 ≤ q)
    (hfl : ⌊q⌋ ≤ I32_MAX - 1) :
    StrongInv M q (i32SatCast ⌊q⌋) (1, 0) (i32SatCast ⌊q⌋, 1) := by
  have hfl0 : 0 ≤ ⌊q⌋ := Int.floor_nonneg.2 hq
  have hsat : i32SatCast ⌊q⌋ = ⌊q⌋ := by
    unfold i32SatCast I32_MAX I32_MIN
    unfold I32_MAX at hfl
    rw [min_eq_right (by omega), max_eq_right (by omega)]
  rw [hsat]
  exact ⟨hq, rfl, le_refl 1, hM, le_refl 0, by omega, by omega, by
    unfold I32_MAX
    omega, hfl0, by omega, fun _ => ⟨rfl, rfl, hfl⟩, by simp⟩

/-- For `M ≥ 1` and a nonnegative input whose floor is below `i32::MAX`, the
core loop plus selection returns a pair with denominator in `[1, M]` and
coprime entries. -/
theorem approximation_core_eq (q : ℚ) (M : ℤ) :
    approximation_core q M =
      (match cfLoop M 45 2 q (i32SatCast ⌊q⌋) (1, 0) (i32SatCast ⌊q⌋, 1) with
       | .exactExit conv => conv
       | .breakExit cfTerm n prev conv => semiconvergent_selector q cfTerm n prev conv) := rfl

theorem approximation_core_ok {q : ℚ} {M : ℤ} (hM : 1 ≤ M) (hq : 0 ≤ q)
    (hfl : ⌊q⌋ ≤ I32_MAX - 1) :
    ConvOK M (approximation_core q M) := by
  have hexit := cfLoop_exit_ok 45 2 q (i32SatCast ⌊q⌋) (1, 0) (i32SatCast ⌊q⌋, 1)
    (initial_inv hM hq hfl)
  rw [approximation_core_eq]
  rcases hres : cfLoop M 45 2 q (i32SatCast ⌊q⌋) (1, 0) (i32SatCast ⌊q⌋, 1) with cv | ⟨cf, n, p, c⟩
  · rw [hres] at hexit
    exact hexit
  · rw [hres] at hexit
    exact selector_ok hexit



/-- For inputs at or above `i32::MAX`, the first iteration always breaks with
`n = 0` (or exits exactly), and the selection yields either the initial
convergent `(i32::MAX, 1)` or the degenerate semiconvergent `(1, 0)`. -/
theorem approximation_core_big {q : ℚ} {M : ℤ} (hM : 1 ≤ M) (hfl : I32_MAX ≤ ⌊q⌋) :
    approximation_core q M = (I32_MAX, 1) ∨ approximation_core q M = (1, 0) := by
  have hsat : i32SatCast ⌊q⌋ = I32_MAX := by
    unfold i32SatCast I32_MAX I32_MIN
    unfold I32_MAX at hfl
    rw [min_eq_left (by omega), max_eq_right (by omega)]
  rw [approximation_core_eq, hsat]
  rw [show (45 : ℕ) = 44 + 1 from rfl, cfLoop_succ]
  by_cases htol : |qSub q ((I32_MAX : ℤ) : ℚ)| ≤ DEFAULT_CONVERGENCE_TOLERANCE
  · rw [cfStep_eq, if_pos htol]
    left
    rfl
  · have hq0 : ((I32_MAX : ℤ) : ℚ) ≤ q := by
      calc ((I32_MAX : ℤ) : ℚ) ≤ ((⌊q⌋ : ℤ) : ℚ) := by exact_mod_cast hfl
      _ ≤ q := Int.floor_le q
    have hnr : 0 < qSub q ((I32_MAX : ℤ) : ℚ) := by
      rw [qSub_eq] at htol ⊢
      rcases lt_or_le 0 (q - ((I32_MAX : ℤ) : ℚ)) with h | h
      · exact h
      · exfalso
        apply htol
        rw [abs_of_nonpos (by linarith)]
        unfold DEFAULT_CONVERGENCE_TOLERANCE
        rw [Rat.divInt_eq_div]
        have : (0:ℚ) ≤ q - ((I32_MAX : ℤ) : ℚ) := by linarith
        have h0 : q - ((I32_MAX : ℤ) : ℚ) = 0 := le_antisymm h this
        rw [h0]
        norm_num
    have hcf2 : 0 ≤ i32SatCast ⌊qDiv 1 (qSub q ((I32_MAX : ℤ) : ℚ))⌋ := by
      have hrec : 0 < qDiv 1 (qSub q ((I32_MAX : ℤ) : ℚ)) := by
        rw [qDiv_eq]
        positivity
      have hfl2 : 0 ≤ ⌊qDiv 1 (qSub q ((I32_MAX : ℤ) : ℚ))⌋ := Int.floor_nonneg.2 hrec.le
      unfold i32SatCast
      have hmin : 0 ≤ min I32_MAX ⌊qDiv 1 (qSub q ((I32_MAX : ℤ) : ℚ))⌋ :=
        le_min (by unfold I32_MAX; omega) hfl2
      exact hmin.trans (le_max_right _ _)
    have hn2 : stepN M (1, 0) (I32_MAX, 1) = 0 := by
      unfold stepN
      have h1 : Int.tdiv (I32_MAX - (1, (0:ℤ)).1) (I32_MAX, (1:ℤ)).1 = 0 := by
        unfold I32_MAX
        decide
      have h2 : Int.tdiv (M - (1, (0:ℤ)).2) (I32_MAX, (1:ℤ)).2 = M := by
        show Int.tdiv (M - 0) 1 = M
        rw [sub_zero, Int.tdiv_one]
      rw [h1, h2]
      rw [if_pos ⟨by unfold I32_MAX; omega, by omega⟩]
    rw [cfStep_eq, if_neg htol, if_pos (Or.inr (by rw [hn2]; exact hcf2))]
    rw [hn2]
    -- now the selector on `cfTerm = cf2, n = 0, prev = (1,0), conv = (I32_MAX,1)`
    show semiconvergent_selector q (i32SatCast ⌊qDiv 1 (qSub q ((I32_MAX : ℤ) : ℚ))⌋) 0
        (1, 0) (I32_MAX, 1) = (I32_MAX, 1) ∨
      semiconvergent_selector q (i32SatCast ⌊qDiv 1 (qSub q ((I32_MAX : ℤ) : ℚ))⌋) 0
        (1, 0) (I32_MAX, 1) = (1, 0)
    rw [semiconvergent_selector_eq]
    set cf2 := i32SatCast ⌊qDiv 1 (qSub q ((I32_MAX : ℤ) : ℚ))⌋ with hcf2def
    have htd : 0 ≤ Int.tdiv cf2 2 := Int.tdiv_nonneg hcf2 (by omega)
    by_cases hlow : Int.tdiv cf2 2 ≤ 0
    · rw [if_pos hlow]
      have hmin : ¬ (cf2 < 0) := not_lt.2 hcf2
      rw [if_neg hmin]
      right
      have hsemi : append_continued_fraction_term (I32_MAX, 1) (1, 0) 0 = ((1 : ℤ), (0 : ℤ)) := by
        unfold append_continued_fraction_term
        norm_num
      rw [if_pos]
      · exact hsemi
      · right
        rw [hsemi]
        rfl
    · rw [if_neg hlow]
      left
      rfl



theorem cfLoop_inl {maxDen : ℤ} (fuel : ℕ) {term : ℤ} {recip : ℚ} {cfTerm : ℤ}
    {prev conv : ℤ × ℤ} {e : LoopExit}
    (h : cfStep maxDen term recip cfTerm prev conv = .inl e) :
    cfLoop maxDen fuel term recip cfTerm prev conv = e := by
  cases fuel with
  | zero => rw [cfLoop_zero, h]
  | succ f => rw [cfLoop_succ, h]

theorem cfLoop_succ_inr {maxDen : ℤ} (f : ℕ) {term : ℤ} {recip : ℚ} {cfTerm : ℤ}
    {prev conv : ℤ × ℤ} {s : LoopNext}
    (h : cfStep maxDen term recip cfTerm prev conv = .inr s) :
    cfLoop maxDen (f + 1) term recip cfTerm prev conv
      = cfLoop maxDen f (term + 1) s.recip s.cfTerm s.prev s.conv := by
  rw [cfLoop_succ, h]

/-- A continuing step can only happen strictly below the term cap. -/
theorem cfStep_continue_term_lt {maxDen term : ℤ} {recip : ℚ} {cfTerm : ℤ}
    {prev conv : ℤ × ℤ} {s : LoopNext}
    (h : cfStep maxDen term recip cfTerm prev conv = .inr s) :
    ¬ DEFAULT_MAX_TERMS ≤ term := by
  intro hge
  rw [cfStep_eq] at h
  by_cases htol : |qSub recip (cfTerm : ℚ)| ≤ DEFAULT_CONVERGENCE_TOLERANCE
  · rw [if_pos htol] at h
    cases h
  · rw [if_neg htol, if_pos (Or.inl hge)] at h
    cases h

/-- Fuel-irrelevance: any two fuels covering the remaining distance to the
47-term cap give the same loop result. -/
theorem cfLoop_fuel_eq (maxDen : ℤ) :
    ∀ (f1 f2 : ℕ) (term : ℤ) (recip : ℚ) (cfTerm : ℤ) (prev conv : ℤ × ℤ),
      47 ≤ term + (f1 : ℤ) → 47 ≤ term + (f2 : ℤ) →
      cfLoop maxDen f1 term recip cfTerm prev conv
        = cfLoop maxDen f2 term recip cfTerm prev conv := by
  intro f1
  induction f1 with
  | zero =>
    intro f2 term recip cfTerm prev conv h1 h2
    have hterm : DEFAULT_MAX_TERMS ≤ term := by
      unfold DEFAULT_MAX_TERMS
      push_cast at h1
      omega
    rcases hstep : cfStep maxDen term recip cfTerm prev conv with e | s
    · rw [cfLoop_inl 0 hstep, cfLoop_inl f2 hstep]
    · exact absurd hterm (cfStep_continue_term_lt hstep)
  | succ f ihf =>
    intro f2 term recip cfTerm prev conv h1 h2
    rcases hstep : cfStep maxDen term recip cfTerm prev conv with e | s
    · rw [cfLoop_inl (f + 1) hstep, cfLoop_inl f2 hstep]
    · have hterm : ¬ DEFAULT_MAX_TERMS ≤ term := cfStep_continue_term_lt hstep
      unfold DEFAULT_MAX_TERMS at hterm
      cases f2 with
      | zero =>
        exfalso
        push_cast at h2
        omega
      | succ g =>
        rw [cfLoop_succ_inr f hstep, cfLoop_succ_inr g hstep]
        refine ihf g (term + 1) _ _ _ _ ?_ ?_
        · push_cast at h1 ⊢
          omega
        · push_cast at h2 ⊢
          omega



/-- Unfolding of `rational_approximation` on a finite value that passes the
range guards. -/
theorem rational_approximation_finite {q : ℚ} {M : ℤ} (hM : 0 < M)
    (h1 : ¬ (F64_MAX < q)) (h2 : ¬ (q < -F64_MAX)) :
    rational_approximation (.finite q) M =
      ((if q < 0 then (-1 : ℤ) else 1) * (approximation_core |q| M).1,
        (approximation_core |q| M).2) := by
  unfold rational_approximation
  simp only [fLt, eAbs, decide_eq_true_eq]
  rw [if_neg (by omega), if_neg h1, if_neg h2]

/-- `rational_approximation` on `NaN` yields the sentinel. -/
theorem rational_approximation_nan {M : ℤ} (hM : 0 < M) :
    rational_approximation .nan M = (0, 0) := by
  unfold rational_approximation
  simp only [fLt]
  rw [if_neg (by omega)]
  rfl

/-- `rational_approximation` on `+∞` saturates high. -/
theorem rational_approximation_posInf {M : ℤ} (hM : 0 < M) :
    rational_approximation .posInf M = (I32_MAX, 1) := by
  unfold rational_approximation
  rw [if_neg (by omega)]
  rfl

/-- `rational_approximation` on `-∞` saturates low. -/
theorem rational_approximation_negInf {M : ℤ} (hM : 0 < M) :
    rational_approximation .negInf M = (I32_MIN, 1) := by
  unfold rational_approximation
  rw [if_neg (by omega)]
  rfl

/-- `rational_approximation` with a non-positive bound yields the sentinel. -/
theorem rational_approximation_nonpos (v : EFloat) {M : ℤ} (hM : M ≤ 0) :
    rational_approximation v M = (0, 0) := by
  unfold rational_approximation
  rw [if_pos hM]

/-- A finite value beyond `F64_MAX` (not a double, but expressible in the
model) saturates high. -/
theorem rational_approximation_hi {q : ℚ} {M : ℤ} (hM : 0 < M) (h : F64_MAX < q) :
    rational_approximation (.finite q) M = (I32_MAX, 1) := by
  unfold rational_approximation
  simp only [fLt, decide_eq_true_eq]
  rw [if_neg (by omega), if_pos h]

/-- A finite value below `-F64_MAX` saturates low. -/
theorem rational_approximation_lo {q : ℚ} {M : ℤ} (hM : 0 < M) (hns : ¬ (F64_MAX < q))
    (h : q < -F64_MAX) :
    rational_approximation (.finite q) M = (I32_MIN, 1) := by
  unfold rational_approximation
  simp only [fLt, decide_eq_true_eq]
  rw [if_neg (by omega), if_neg hns, if_pos h]



theorem m_append_eq : m_append_continued_fraction_term = append_continued_fraction_term := rfl

theorem m_fraction_to_double_eq : m_fraction_to_double = fraction_to_double := rfl

theorem m_stepN_eq : m_stepN = stepN := rfl

theorem m_cfStep_eq_cfStep : m_cfStep = cfStep := by
  funext maxDen term recip cfTerm prev conv
  unfold m_cfStep cfStep
  rw [m_append_eq, m_stepN_eq]

theorem m_cfLoop_zero (maxDen : ℤ) (term : ℤ) (recip : ℚ) (cfTerm : ℤ)
    (prev conv : ℤ × ℤ) :
    m_cfLoop maxDen 0 term recip cfTerm prev conv
      = (match m_cfStep maxDen term recip cfTerm prev conv with
         | .inl e => e
         | .inr s => s.onFuelOut) := rfl

theorem m_cfLoop_succ (maxDen : ℤ) (f : ℕ) (term : ℤ) (recip : ℚ) (cfTerm : ℤ)
    (prev conv : ℤ × ℤ) :
    m_cfLoop maxDen (f + 1) term recip cfTerm prev conv
      = (match m_cfStep maxDen term recip cfTerm prev conv with
         | .inl e => e
         | .inr s => m_cfLoop maxDen f (term + 1) s.recip s.cfTerm s.prev s.conv) := rfl

theorem m_cfLoop_eq_cfLoop (maxDen : ℤ) :
    ∀ (fuel : ℕ) (term : ℤ) (recip : ℚ) (cfTerm : ℤ) (prev conv : ℤ × ℤ),
      m_cfLoop maxDen fuel term recip cfTerm prev conv
        = cfLoop maxDen fuel term recip cfTerm prev conv := by
  intro fuel
  induction fuel with
  | zero =>
    intro term recip cfTerm prev conv
    rw [m_cfLoop_zero, cfLoop_zero, m_cfStep_eq_cfStep]
  | succ f ih =>
    intro term recip cfTerm prev conv
    rw [m_cfLoop_succ, cfLoop_succ, m_cfStep_eq_cfStep]
    rcases hstep : cfStep maxDen term recip cfTerm prev conv with e | s
    · rfl
    · exact ih (term + 1) _ _ _ _

theorem m_semiconvergent_selector_eq_selector :
    m_semiconvergent_selector = semiconvergent_selector := by
  funext q cfTerm n p c
  unfold m_semiconvergent_selector semiconvergent_selector
  rw [m_append_eq, m_fraction_to_double_eq]

theorem m_approximation_core_eq (q : ℚ) (M : ℤ) :
    m_approximation_core q M =
      (match m_cfLoop M 45 2 q (i32SatCast ⌊q⌋) (1, 0) (i32SatCast ⌊q⌋, 1) with
       | .exactExit conv => conv
       | .breakExit cfTerm n prev conv => m_semiconvergent_selector q cfTerm n prev conv) := rfl

theorem m_approximation_core_eq_core : m_approximation_core = approximation_core := by
  funext q M
  rw [m_approximation_core_eq, approximation_core_eq, m_cfLoop_eq_cfLoop,
    m_semiconvergent_selector_eq_selector]

theorem approximate_rational_eq :
    approximate_rational = rational_approximation := by
  funext v M
  unfold approximate_rational rational_approximation
  rw [m_approximation_core_eq_core]

/-- The math module's public one-argument wrapper, in terms of the primary
two-argument routine at bound `100`. -/
theorem m_rational_approximation_eq_primary (value : EFloat) :
    m_rational_approximation value = rational_approximation value 100 := by
  unfold m_rational_approximation DEFAULT_MAX_DENOMINATOR
  rw [approximate_rational_eq]

/-- `value - 1.0` on a finite modelled double is exact. -/
theorem efSubOne_finite (q : ℚ) : efSubOne (.finite q) = .finite (q - 1) := by
  show EFloat.finite (qSub q 1) = EFloat.finite (q - 1)
  rw [qSub_eq]

/-- The odd-module constructor on `(0, d)` with `d > 0`: the gcd is `d`, the
fraction reduces to `(0, 1)`, and the `NonZeroU32` conversion of the zero
numerator fails with `OddError::Invalid`. -/
theorem odd_fractional_new_zero_num {d : ℕ} (hd : 0 < d) :
    odd_fractional_new 0 d = .invalid := by
  unfold odd_fractional_new simplify_fraction rust_gcd
  rw [Nat.gcd_zero_left, if_neg (Nat.pos_iff_ne_zero.1 hd), Nat.zero_div,
    Nat.div_self hd]
  decide



/-! ### Claim theorems and witnesses -/

set_option maxHeartbeats 1000000


/-- Multiplying the numerator by the extracted sign does not change the gcd. -/
theorem gcd_sign_mul (q : ℚ) (a b : ℤ) :
    Int.gcd ((if q < 0 then (-1 : ℤ) else 1) * a) b = Int.gcd a b := by
  split_ifs
  · rw [neg_one_mul, Int.neg_gcd]
  · rw [one_mul]

/-- The core evaluated at `0` gives `(0, 1)` (exact convergence at once). -/
theorem approximation_core_zero (M : ℤ) : approximation_core 0 M = (0, 1) := by
  rw [approximation_core_eq]
  have hfl : ⌊(0 : ℚ)⌋ = 0 := Int.floor_zero
  rw [hfl, show i32SatCast 0 = 0 from by decide]
  have hstep : cfStep M 2 0 0 (1, 0) (0, 1) = .inl (.exactExit (0, 1)) := by
    rw [cfStep_eq, if_pos (by decide)]
  rw [cfLoop_inl 45 hstep]

/-- C2 (amended), proved below as `spec_C2_sentinel_iff`: helper giving
non-sentinel for finite values with a positive bound. -/
theorem rational_approximation_finite_ne_sentinel {q : ℚ} {M : ℤ} (hM : 0 < M) :
    rational_approximation (.finite q) M ≠ (0, 0) := by
  by_cases h1 : F64_MAX < q
  · rw [rational_approximation_hi hM h1]
    decide
  by_cases h2 : q < -F64_MAX
  · rw [rational_approximation_lo hM h1 h2]
    decide
  rw [rational_approximation_finite hM h1 h2]
  by_cases hbig : ⌊|q|⌋ ≤ I32_MAX - 1
  · obtain ⟨hge, -, -⟩ := @approximation_core_ok (|q|) M (by omega) (abs_nonneg q) hbig
    intro h
    have hsnd := congrArg Prod.snd h
    simp at hsnd
    omega
  · push_neg at hbig
    have hbig2 : I32_MAX ≤ ⌊|q|⌋ := by omega
    rcases @approximation_core_big (|q|) M (by omega) hbig2 with hb | hb
    · rw [hb]
      intro h
      have hsnd := congrArg Prod.snd h
      simp at hsnd
    · rw [hb]
      intro h
      have hfst := congrArg Prod.fst h
      simp at hfst
      split_ifs at hfst
      all_goals omega



/-! ### Claim theorems -/


/-- C1 counterexample: at `value = 2147483647.75` (the exactly representable
double `8589934591/4`) with `max_denominator = 100`, the routine returns
`(1, 0)`: a pair that is neither the sentinel nor a saturation pair, and
whose denominator `0` is outside `[1, 100]`. -/
theorem spec_C1_counterexample :
    rational_approximation (.finite (Rat.divInt 8589934591 4)) 100 = (1, 0) ∧
    rational_approximation (.finite (Rat.divInt 8589934591 4)) 100 ≠ (0, 0) ∧
    rational_approximation (.finite (Rat.divInt 8589934591 4)) 100 ≠ (I32_MAX, 1) ∧
    rational_approximation (.finite (Rat.divInt 8589934591 4)) 100 ≠ (I32_MIN, 1) ∧
    ¬ (1 ≤ (rational_approximation (.finite (Rat.divInt 8589934591 4)) 100).2 ∧
        (rational_approximation (.finite (Rat.divInt 8589934591 4)) 100).2 ≤ 100) := by
  refine ⟨by decide, by decide, by decide, by decide, by decide⟩

/-- C1 (amended): for every `max_denominator > 0` and every finite value of
magnitude below `2³¹ - 1 = 2147483647`, the returned denominator is within
`[1, max_denominator]`.  (For finite values of magnitude `≥ 2³¹ - 1` the
routine can return denominator `0`, see `spec_C1_counterexample`.) -/
theorem spec_C1_denominator_in_range (q : ℚ) (M : ℤ) (hM : 0 < M)
    (hq : |q| < 2147483647) :
    1 ≤ (rational_approximation (.finite q) M).2 ∧
      (rational_approximation (.finite q) M).2 ≤ M := by
  have hqF : (2147483647 : ℚ) < F64_MAX := by
    rw [F64_MAX_eq]
    norm_num
  have habs := abs_lt.1 hq
  have h1 : ¬ (F64_MAX < q) := by
    intro h
    linarith
  have h2 : ¬ (q < -F64_MAX) := by
    intro h
    linarith
  rw [rational_approximation_finite hM h1 h2]
  have hfl : ⌊|q|⌋ ≤ I32_MAX - 1 := by
    have hcast : |q| < ((2147483647 : ℤ) : ℚ) := by exact_mod_cast hq
    have := Int.floor_lt.2 hcast
    unfold I32_MAX
    omega
  obtain ⟨hge, hle, -⟩ := @approximation_core_ok (|q|) M (by omega) (abs_nonneg q) hfl
  exact ⟨hge, hle⟩

/-- C1 witness: at `value = 1/2`, bound `100`, the denominator is in range. -/
theorem spec_C1_witness :
    1 ≤ (rational_approximation (.finite (Rat.divInt 1 2)) 100).2 ∧
      (rational_approximation (.finite (Rat.divInt 1 2)) 100).2 ≤ 100 :=
  spec_C1_denominator_in_range (Rat.divInt 1 2) 100 (by decide) (by decide)

/-- C2 counterexample: infinite inputs do not map to the sentinel `(0, 0)`
(the claim says NaN *or infinite* map to it); they hit the range guards and
return the saturation pairs instead. -/
theorem spec_C2_counterexample :
    rational_approximation .posInf 100 = (I32_MAX, 1) ∧
    rational_approximation .posInf 100 ≠ (0, 0) ∧
    rational_approximation .negInf 100 = (I32_MIN, 1) ∧
    rational_approximation .negInf 100 ≠ (0, 0) := by
  refine ⟨by decide, by decide, by decide, by decide⟩

/-- C2 (amended): the routine returns the sentinel `(0, 0)` exactly when
`max_denominator ≤ 0` or the value is `NaN`; infinite values return the
saturation pairs, and every finite value with a positive bound returns a
non-sentinel pair. -/
theorem spec_C2_sentinel_iff (v : EFloat) (M : ℤ) :
    rational_approximation v M = (0, 0) ↔ M ≤ 0 ∨ v = .nan := by
  constructor
  · intro h
    by_contra hcon
    push_neg at hcon
    obtain ⟨hMle, hnan⟩ := hcon
    have hM : 0 < M := by omega
    cases v with
    | nan => exact hnan rfl
    | posInf =>
      rw [rational_approximation_posInf hM] at h
      exact absurd h (by decide)
    | negInf =>
      rw [rational_approximation_negInf hM] at h
      exact absurd h (by decide)
    | finite q => exact rational_approximation_finite_ne_sentinel hM h
  · intro h
    rcases h with hM | hv
    · exact rational_approximation_nonpos v hM
    · subst hv
      rcases lt_or_le 0 M with hM | hM
      · exact rational_approximation_nan hM
      · exact rational_approximation_nonpos _ (by omega)

/-- C3: the failing input `value = 3000000000.5` (the double `6000000001/2`,
which exceeds `i32::MAX - 0.5`) is not saturated to `(i32::MAX, 1)`: the
range guard compares against `f64::MAX - 0.5` (a no-op in `f64`), the
`floor() as i32` cast saturates, and the broken semiconvergent comparison
then selects `(1, 0)`. -/
theorem spec_C3_failing_input :
    rational_approximation (.finite (Rat.divInt 6000000001 2)) 100 = (1, 0) ∧
    rational_approximation (.finite (Rat.divInt 6000000001 2)) 100 ≠ (I32_MAX, 1) := by
  refine ⟨by decide, by decide⟩

/-- C4 counterexample: on sentinel results the claim fails:
`gcd(0, 0) = 0 ≠ 1`. -/
theorem spec_C4_counterexample :
    rational_approximation (.finite (Rat.divInt 1 2)) 0 = (0, 0) ∧
    ¬ Int.gcd (rational_approximation (.finite (Rat.divInt 1 2)) 0).1
        (rational_approximation (.finite (Rat.divInt 1 2)) 0).2 = 1 := by
  refine ⟨by decide, by decide⟩

/-- C4 (amended): for every input whose result is not the sentinel `(0, 0)`,
the returned numerator and denominator are coprime. -/
theorem spec_C4_coprime (v : EFloat) (M : ℤ)
    (h : rational_approximation v M ≠ (0, 0)) :
    Int.gcd (rational_approximation v M).1 (rational_approximation v M).2 = 1 := by
  rcases le_or_lt M 0 with hML | hM
  · exact absurd (rational_approximation_nonpos v hML) h
  cases v with
  | nan => exact absurd (rational_approximation_nan hM) h
  | posInf =>
    rw [rational_approximation_posInf hM]
    decide
  | negInf =>
    rw [rational_approximation_negInf hM]
    decide
  | finite q =>
    by_cases h1 : F64_MAX < q
    · rw [rational_approximation_hi hM h1]
      decide
    by_cases h2 : q < -F64_MAX
    · rw [rational_approximation_lo hM h1 h2]
      decide
    rw [rational_approximation_finite hM h1 h2]
    show Int.gcd ((if q < 0 then (-1 : ℤ) else 1) * (approximation_core (|q|) M).1)
      (approximation_core (|q|) M).2 = 1
    rw [gcd_sign_mul]
    by_cases hbig : ⌊|q|⌋ ≤ I32_MAX - 1
    · obtain ⟨-, -, hgcd, -⟩ := @approximation_core_ok (|q|) M (by omega) (abs_nonneg q) hbig
      exact hgcd
    · push_neg at hbig
      have hbig2 : I32_MAX ≤ ⌊|q|⌋ := by omega
      rcases @approximation_core_big (|q|) M (by omega) hbig2 with hb | hb
      · rw [hb]
        decide
      · rw [hb]
        decide

/-- C4 witness: at `value = 1/2`, bound `100`, the result is non-sentinel and
its entries are coprime. -/
theorem spec_C4_witness :
    Int.gcd (rational_approximation (.finite (Rat.divInt 1 2)) 100).1
      (rational_approximation (.finite (Rat.divInt 1 2)) 100).2 = 1 :=
  spec_C4_coprime (.finite (Rat.divInt 1 2)) 100 (by decide)

/-- C5: the five literal scenarios of the spec, with the double literals
replaced by their exact rational values:
`0.5 = 1/2`, `0.3333333333333333 = 6004799503160661/2⁵⁴`,
`0.14285714285714285 = 2573485501354569/2⁵⁴`,
`0.01123595506 = 3238543553367529/2⁵⁸`,
`0.5280898876 = 2378305421013487/2⁵²`. -/
theorem spec_C5_literal_scenarios :
    rational_approximation (.finite (Rat.divInt 1 2)) 100 = (1, 2) ∧
    rational_approximation
      (.finite (Rat.divInt 6004799503160661 18014398509481984)) 100 = (1, 3) ∧
    rational_approximation
      (.finite (Rat.divInt 2573485501354569 18014398509481984)) 100 = (1, 7) ∧
    rational_approximation
      (.finite (Rat.divInt 3238543553367529 288230376151711744)) 100 = (1, 89) ∧
    rational_approximation
      (.finite (Rat.divInt 2378305421013487 4503599627370496)) 100 = (47, 89) := by
  refine ⟨by decide, by decide, by decide, by decide, by decide⟩

/-- C6: monotonic accuracy fails.  At `value = 0.5029296875 = 515/1024`
(exactly representable), the bound `84` gives `1/2` with error `3/1024 =
255/87040`, while the larger bound `85` gives `43/85` with the strictly
larger error `257/87040`: the mis-grouped semiconvergent comparison accepts
a semiconvergent that lies above the value regardless of quality. -/
theorem spec_C6_failing_input :
    rational_approximation (.finite (Rat.divInt 515 1024)) 84 = (1, 2) ∧
    rational_approximation (.finite (Rat.divInt 515 1024)) 85 = (43, 85) ∧
    |qSub (Rat.divInt 515 1024) (Rat.divInt 1 2)| <
      |qSub (Rat.divInt 515 1024) (Rat.divInt 43 85)| := by
  refine ⟨by decide, by decide, by decide⟩




/-- C7: sign symmetry — negating a finite input negates the numerator and
keeps the denominator, whenever the original call returns neither the
sentinel nor a saturation pair — and the returned denominator is always
non-negative, on every input. -/
theorem spec_C7_sign_symmetry :
    (∀ (q : ℚ) (M : ℤ),
        rational_approximation (.finite q) M ≠ (0, 0) →
        rational_approximation (.finite q) M ≠ (I32_MAX, 1) →
        rational_approximation (.finite q) M ≠ (I32_MIN, 1) →
        rational_approximation (.finite (-q)) M
          = (-(rational_approximation (.finite q) M).1,
             (rational_approximation (.finite q) M).2)) ∧
    ∀ (v : EFloat) (M : ℤ), 0 ≤ (rational_approximation v M).2 := by
  constructor
  · intro q M h0 hhi hlo
    have hM : 0 < M := by
      rcases lt_or_le 0 M with h | h
      · exact h
      · exact absurd (rational_approximation_nonpos (.finite q) h) h0
    have h1 : ¬ (F64_MAX < q) := fun h => hhi (rational_approximation_hi hM h)
    have h2 : ¬ (q < -F64_MAX) := fun h => hlo (rational_approximation_lo hM h1 h)
    have h1n : ¬ (F64_MAX < -q) := fun h => h2 (by linarith)
    have h2n : ¬ (-q < -F64_MAX) := fun h => h1 (by linarith)
    rw [rational_approximation_finite hM h1 h2,
      rational_approximation_finite hM h1n h2n, abs_neg]
    rcases lt_trichotomy q 0 with hq | hq | hq
    · rw [if_neg (show ¬ (-q < 0) by linarith), if_pos hq]
      norm_num
    · subst hq
      rw [neg_zero, abs_zero, approximation_core_zero]
      norm_num
    · rw [if_pos (show -q < 0 by linarith), if_neg (show ¬ (q < 0) by linarith)]
      norm_num
  · intro v M
    rcases le_or_lt M 0 with hML | hM
    · rw [rational_approximation_nonpos v hML]
    cases v with
    | nan =>
      rw [rational_approximation_nan hM]
    | posInf =>
      rw [rational_approximation_posInf hM]
      norm_num
    | negInf =>
      rw [rational_approximation_negInf hM]
      norm_num
    | finite q =>
      by_cases h1 : F64_MAX < q
      · rw [rational_approximation_hi hM h1]
        norm_num
      by_cases h2 : q < -F64_MAX
      · rw [rational_approximation_lo hM h1 h2]
        norm_num
      rw [rational_approximation_finite hM h1 h2]
      show 0 ≤ (approximation_core (|q|) M).2
      by_cases hbig : ⌊|q|⌋ ≤ I32_MAX - 1
      · obtain ⟨hge, -, -⟩ := @approximation_core_ok (|q|) M (by omega) (abs_nonneg q) hbig
        omega
      · push_neg at hbig
        have hbig2 : I32_MAX ≤ ⌊|q|⌋ := by omega
        rcases @approximation_core_big (|q|) M (by omega) hbig2 with hb | hb
        · rw [hb]
          decide
        · rw [hb]

/-- C7 witness: at `value = 1/2`, bound `100`. -/
theorem spec_C7_witness :
    rational_approximation (.finite (-(Rat.divInt 1 2))) 100
      = (-(rational_approximation (.finite (Rat.divInt 1 2)) 100).1,
         (rational_approximation (.finite (Rat.divInt 1 2)) 100).2) :=
  spec_C7_sign_symmetry.1 (Rat.divInt 1 2) 100 (by decide) (by decide) (by decide)

/-- C8 counterexample: `Decimal::new` accepts `NaN` (the `value < 1.0` test
is false on `NaN`), the approximation routine then returns the sentinel
`(0, 0)` — a non-positive numerator and denominator — and the
`TryFrom<Decimal>` impl of `src/odd/fractional.rs` does not return an error:
it panics on the division by `gcd(0, 0) = 0` inside
`math::simplify_fraction`. -/
theorem spec_C8_counterexample :
    decimal_new .nan = some .nan ∧
    m_rational_approximation (efSubOne .nan) = (0, 0) ∧
    odd_decimal_to_fractional .nan ≠ OddConvResult.invalid ∧
    odd_decimal_to_fractional .nan = OddConvResult.panics := by
  refine ⟨by decide, by decide, by decide, by decide⟩

/-- C8 (amended): both `TryFrom<Decimal>` impls call the approximation
routine with `value - 1.0` and bound `100`.  The impl in `src/lib.rs`
returns an error (`none`) whenever the routine's numerator or denominator is
non-positive.  The impl in `src/odd/fractional.rs` also returns an error
(`OddError::Invalid`) in those cases for every valid non-NaN decimal odd;
for a NaN-valued decimal (accepted by `Decimal::new`) the routine returns
the sentinel `(0, 0)` and the conversion panics inside
`math::simplify_fraction` instead of returning an error. -/
theorem spec_C8_conversion_rejects :
    (∀ v : EFloat,
        (rational_approximation (efSubOne v) RATIONAL_APPROXIMATION_MAX_DENOMINATOR).1 ≤ 0 ∨
          (rational_approximation (efSubOne v) RATIONAL_APPROXIMATION_MAX_DENOMINATOR).2 ≤ 0 →
        decimal_to_fractional v = none) ∧
    (∀ v : EFloat, decimal_new v = some v → v ≠ .nan →
        (m_rational_approximation (efSubOne v)).1 ≤ 0 ∨
          (m_rational_approximation (efSubOne v)).2 ≤ 0 →
        odd_decimal_to_fractional v = OddConvResult.invalid) ∧
    odd_decimal_to_fractional .nan = OddConvResult.panics := by
  refine ⟨?_, ?_, by decide⟩
  · intro v h
    unfold decimal_to_fractional
    rw [if_pos h]
  · intro v hval hnan hle
    cases v with
    | nan => exact absurd rfl hnan
    | negInf => exact absurd hval (by decide)
    | posInf =>
      rw [show m_rational_approximation (efSubOne .posInf) = (I32_MAX, 1) from by decide] at hle
      exact absurd hle (by decide)
    | finite q =>
      have h1q : (1 : ℚ) ≤ q := by
        by_contra hq1
        push_neg at hq1
        have hlt : fLt (.finite q) (.finite 1) = true := by
          simp only [fLt, decide_eq_true_eq]
          exact hq1
        unfold decimal_new at hval
        rw [hlt] at hval
        simp at hval
      have hF : (0 : ℚ) < F64_MAX := by
        rw [F64_MAX_eq]
        norm_num
      by_cases hhi : F64_MAX < q - 1
      · rw [efSubOne_finite, m_rational_approximation_eq_primary,
          rational_approximation_hi (by norm_num) hhi] at hle
        exact absurd hle (by decide)
      · have hlo : ¬ (q - 1 < -F64_MAX) := by
          push_neg
          linarith
        have habs : |q - (1 : ℚ)| = q - 1 := abs_of_nonneg (by linarith)
        have hp1 : (m_rational_approximation (efSubOne (.finite q))).1
            = (approximation_core (q - 1) 100).1 := by
          rw [efSubOne_finite, m_rational_approximation_eq_primary,
            rational_approximation_finite (by norm_num) hhi hlo,
            if_neg (show ¬ (q - 1 < 0) by linarith), one_mul, habs]
        have hp2 : (m_rational_approximation (efSubOne (.finite q))).2
            = (approximation_core (q - 1) 100).2 := by
          rw [efSubOne_finite, m_rational_approximation_eq_primary,
            rational_approximation_finite (by norm_num) hhi hlo, habs]
        rw [hp1, hp2] at hle
        by_cases hbig : ⌊q - (1 : ℚ)⌋ ≤ I32_MAX - 1
        · obtain ⟨hd1, -, -, hnum⟩ :=
            @approximation_core_ok (q - 1) 100 (by norm_num) (by linarith) hbig
          have hc10 : (approximation_core (q - 1) 100).1 = 0 := by omega
          have hd : 0 < (approximation_core (q - 1) 100).2.natAbs := by omega
          unfold odd_decimal_to_fractional
          rw [hp1, hp2, hc10]
          exact odd_fractional_new_zero_num hd
        · push_neg at hbig
          rcases @approximation_core_big (q - 1) 100 (by norm_num) (by omega) with hb | hb
          · rw [hb] at hle
            exact absurd hle (by decide)
          · unfold odd_decimal_to_fractional
            rw [hp1, hp2, hb]
            decide

/-- C8 witness: at the decimal odd `1.0` the routine returns `(0, 1)` with
numerator `0 ≤ 0`, and both conversions reject it: `src/lib.rs` returns
`none` and `src/odd/fractional.rs` returns `OddError::Invalid`. -/
theorem spec_C8_witness :
    decimal_to_fractional (.finite 1) = none ∧
    odd_decimal_to_fractional (.finite 1) = OddConvResult.invalid :=
  ⟨spec_C8_conversion_rejects.1 (.finite 1) (Or.inl (by decide)),
   spec_C8_conversion_rejects.2.1 (.finite 1) (by decide) (by decide) (Or.inl (by decide))⟩

/-- C9: the continued-fraction loop always stops by the fixed 47-term cap:
starting from any term index, any two fuel budgets that cover the distance
to `term = 47` produce the same result, so the loop's behaviour is fully
determined by at most `47 - term` iterations and the embedding (which runs
the loop from `term = 2` with fuel `45`) is a total function. -/
theorem spec_C9_term_cap (maxDen : ℤ) (f1 f2 : ℕ) (term : ℤ) (recip : ℚ)
    (cfTerm : ℤ) (prev conv : ℤ × ℤ)
    (h1 : 47 ≤ term + (f1 : ℤ)) (h2 : 47 ≤ term + (f2 : ℤ)) :
    cfLoop maxDen f1 term recip cfTerm prev conv
      = cfLoop maxDen f2 term recip cfTerm prev conv :=
  cfLoop_fuel_eq maxDen f1 f2 term recip cfTerm prev conv h1 h2

/-- C9 witness: with fuel `50` and fuel `45` from the initial term index `2`,
the loop gives identical results on a concrete state. -/
theorem spec_C9_witness :
    cfLoop 100 50 2 (Rat.divInt 1 3) 0 (1, 0) (0, 1)
      = cfLoop 100 45 2 (Rat.divInt 1 3) 0 (1, 0) (0, 1) :=
  spec_C9_term_cap 100 50 45 2 (Rat.divInt 1 3) 0 (1, 0) (0, 1) (by decide) (by decide)

/-- C10: the two copies of the routine compute the same function:
`approximate_rational` in `src/math/rational_approximation.rs` agrees with
`rational_approximation` in `src/rational_approximation.rs` on every input,
and the math module's public one-argument wrapper equals the two-argument
routine at bound `100`. -/
theorem spec_C10_copies_agree :
    (∀ (value : EFloat) (max_denominator : ℤ),
        approximate_rational value max_denominator
          = rational_approximation value max_denominator) ∧
    ∀ (value : EFloat),
        m_rational_approximation value = rational_approximation value 100 := by
  constructor
  · intro v M
    rw [approximate_rational_eq]
  · intro v
    unfold m_rational_approximation DEFAULT_MAX_DENOMINATOR
    rw [approximate_rational_eq]


end Wager
